import Mathlib

/-!
A verification development for the Falcon build system
(graph model, daemon commands, option registration, JSON stream server).

Each C++ component is shallowly embedded as executable Lean definitions:
pure data is translated directly, stateful methods become functions on
explicit state records, and recursive graph traversals take an explicit
fuel argument (the C++ recursion terminates because the graph is acyclic;
with enough fuel the Lean functions compute the same result, which is
proved below).
-/

namespace Falcon

/-! ## Graph model (src/graph.h, state-mutating operations of graph.cpp)

`graph.h` declares `Node::markDirty`, `Node::markUpToDate` and
`Rule::markDirty`; the bodies live in `graph.cpp`.  Nodes are identified
by their position in `Graph.nodePaths` (the key set of the C++ `NodeMap`),
rules by their position in `Graph.rules`.  The mutable `state_` fields of
all nodes and rules are gathered in a separate state record `GState`. -/

/-- Build state of a node or a rule (graph.h, `enum class State`). -/
inductive State where
  | UP_TO_DATE
  | OUT_OF_DATE
  deriving DecidableEq, Repr

/-- A build rule (graph.h, `class Rule`): input node ids, output node ids,
command (empty means phony) and depfile path. -/
structure Rule where
  inputs : List Nat
  outputs : List Nat
  command : String
  depfile : String
  deriving DecidableEq, Repr

/-- The graph (graph.h, `class Graph`): the node map's keys (node id =
index into `nodePaths`) and all rules. -/
structure Graph where
  nodePaths : List String
  rules : List Rule
  deriving DecidableEq, Repr

/-- The states of all nodes and rules, indexed by node id / rule index.
This gathers the `state_` fields that the C++ objects hold in place. -/
@[ext]
structure GState where
  nodeState : Nat → State
  ruleState : Nat → State

/-- The consumer ("parent") rules of node `n`, with their indices:
the rules that take `n` as an input (graph.h, `Node::getParents`). -/
def parentRules (g : Graph) (n : Nat) : List (Nat × Rule) :=
  g.rules.enum.filter (fun pr => decide (n ∈ pr.2.inputs))

/-- Set the state of node `n` to OUT_OF_DATE. -/
def setNodeDirty (n : Nat) (s : GState) : GState :=
  { s with nodeState := fun k => if k = n then State.OUT_OF_DATE else s.nodeState k }

/-- Set the state of rule `i` to OUT_OF_DATE. -/
def setRuleDirty (i : Nat) (s : GState) : GState :=
  { s with ruleState := fun k => if k = i then State.OUT_OF_DATE else s.ruleState k }

/-- Set the state of node `n` to UP_TO_DATE. -/
def setNodeUpToDate (n : Nat) (s : GState) : GState :=
  { s with nodeState := fun k => if k = n then State.UP_TO_DATE else s.nodeState k }

/-- Set the state of rule `i` to UP_TO_DATE. -/
def setRuleUpToDate (i : Nat) (s : GState) : GState :=
  { s with ruleState := fun k => if k = i then State.UP_TO_DATE else s.ruleState k }

/-- Modelled from the spec: `Node::markDirty` is declared in graph.h (lines
66-74) but its body lives in graph.cpp, which is not under src/.  Spec
4.1: "`Node.markDirty()`: set state OUT_OF_DATE; recursively markDirty()
every node produced by every consumer rule", where "`Rule.markDirty()`:
set rule OUT_OF_DATE and call markDirty() on each output".  The mutual
recursion of the two methods is inlined here: the inner two folds are one
`Rule::markDirty` step per consumer rule.  `fuel` bounds the recursion
depth; the C++ recursion terminates because the graph is acyclic, and the
theorems below show that with enough fuel the result is fuel-independent. -/
def markDirtyNode (g : Graph) : Nat → Nat → GState → GState
  | 0, _, s => s
  | fuel + 1, n, s =>
      (parentRules g n).foldl
        (fun acc pr =>
          pr.2.outputs.foldl (fun acc2 o => markDirtyNode g fuel o acc2)
            (setRuleDirty pr.1 acc))
        (setNodeDirty n s)

/-- Modelled from the spec: `Rule::markDirty` (graph.h line 139, body in
graph.cpp, not under src/): "set rule OUT_OF_DATE and call markDirty() on
each output". -/
def markDirtyRule (g : Graph) (fuel : Nat) (pr : Nat × Rule) (s : GState) : GState :=
  pr.2.outputs.foldl (fun acc2 o => markDirtyNode g fuel o acc2) (setRuleDirty pr.1 s)

/-- One consumer-rule step of `Node::markUpToDate`: if all the rule's
outputs are now UP_TO_DATE, set the rule UP_TO_DATE. -/
def upRuleStep (acc : GState) (pr : Nat × Rule) : GState :=
  if pr.2.outputs.all (fun o => decide (acc.nodeState o = State.UP_TO_DATE)) then
    setRuleUpToDate pr.1 acc
  else acc

/-- Modelled from the spec: `Node::markUpToDate` (graph.h line 74, body in
graph.cpp, not under src/).  Spec 4.1: "set state UP_TO_DATE; for each
consumer rule, if all its outputs are now UP_TO_DATE, set the rule
UP_TO_DATE." -/
def markUpToDate (g : Graph) (n : Nat) (s : GState) : GState :=
  (parentRules g n).foldl upRuleStep (setNodeUpToDate n s)

/-- Transitive dependents: `DepN g n k` holds when node `k` is reachable
from node `n` along consumer-rule to output edges (including `k = n`). -/
inductive DepN (g : Graph) : Nat → Nat → Prop where
  | refl (n : Nat) : DepN g n n
  | step {n k : Nat} (pr : Nat × Rule) (o : Nat) (hpr : pr ∈ parentRules g n)
      (ho : o ∈ pr.2.outputs) (h : DepN g o k) : DepN g n k

/-- Rule index `i` is a dependent rule of node `n`: some node reachable
from `n` has the rule with index `i` among its consumers. -/
def DepR (g : Graph) (n i : Nat) : Prop :=
  ∃ m r, DepN g n m ∧ (i, r) ∈ parentRules g m

/-- Acyclicity witness: a rank function that strictly increases along every
input-to-output edge of every rule, bounded by `B`.  A graph that is
acyclic in the sense of spec 3 (invariant 1) admits such a rank. -/
def RankOk (g : Graph) (rank : Nat → Nat) (B : Nat) : Prop :=
  ∀ r ∈ g.rules, ∀ i ∈ r.inputs, ∀ o ∈ r.outputs, rank i < rank o ∧ rank o ≤ B

instance (g : Graph) (rank : Nat → Nat) (B : Nat) : Decidable (RankOk g rank B) := by
  unfold RankOk; infer_instance

/-! ### Helper lemmas about `enum` and the fold steps -/

theorem mem_enumFrom_snd {α : Type} : ∀ (l : List α) (i : Nat) (p : Nat × α),
    p ∈ l.enumFrom i → p.2 ∈ l := by
  intro l
  induction l with
  | nil => intro i p h; simp [List.enumFrom] at h
  | cons a t ih =>
      intro i p h
      simp only [List.enumFrom, List.mem_cons] at h
      rcases h with h | h
      · subst h; simp
      · exact List.mem_cons_of_mem a (ih (i + 1) p h)

theorem mem_enumFrom_fst_ge {α : Type} : ∀ (l : List α) (i : Nat) (p : Nat × α),
    p ∈ l.enumFrom i → i ≤ p.1 := by
  intro l
  induction l with
  | nil => intro i p h; simp [List.enumFrom] at h
  | cons a t ih =>
      intro i p h
      simp only [List.enumFrom, List.mem_cons] at h
      rcases h with h | h
      · subst h; exact Nat.le_refl i
      · exact Nat.le_of_succ_le (ih (i + 1) p h)

theorem enumFrom_fst_inj {α : Type} : ∀ (l : List α) (i : Nat) (p q : Nat × α),
    p ∈ l.enumFrom i → q ∈ l.enumFrom i → p.1 = q.1 → p = q := by
  intro l
  induction l with
  | nil => intro i p q hp; simp [List.enumFrom] at hp
  | cons a t ih =>
      intro i p q hp hq hfst
      simp only [List.enumFrom, List.mem_cons] at hp hq
      rcases hp with hp | hp <;> rcases hq with hq | hq
      · rw [hp, hq]
      · exfalso
        have hge := mem_enumFrom_fst_ge t (i + 1) q hq
        rw [hp] at hfst
        simp at hfst
        omega
      · exfalso
        have hge := mem_enumFrom_fst_ge t (i + 1) p hp
        rw [hq] at hfst
        simp at hfst
        omega
      · exact ih (i + 1) p q hp hq hfst

/-- Membership in `parentRules` unpacked. -/
theorem mem_parentRules_iff {g : Graph} {n : Nat} {pr : Nat × Rule} :
    pr ∈ parentRules g n ↔ pr ∈ g.rules.enum ∧ n ∈ pr.2.inputs := by
  unfold parentRules
  rw [List.mem_filter]
  simp

/-- A parent rule of any node is a rule of the graph. -/
theorem parentRules_rule_mem {g : Graph} {n : Nat} {pr : Nat × Rule}
    (h : pr ∈ parentRules g n) : pr.2 ∈ g.rules := by
  have h2 := (mem_parentRules_iff.mp h).1
  exact mem_enumFrom_snd g.rules 0 pr (by simpa [List.enum] using h2)

/-- The fold over a list of output nodes performed by `Rule::markDirty`. -/
def dirtyNodesFold (g : Graph) (fuel : Nat) (l : List Nat) (s : GState) : GState :=
  l.foldl (fun acc o => markDirtyNode g fuel o acc) s

/-- The fold over a list of consumer rules performed by `Node::markDirty`. -/
def dirtyRulesFold (g : Graph) (fuel : Nat) (l : List (Nat × Rule)) (s : GState) : GState :=
  l.foldl (fun acc pr => dirtyNodesFold g fuel pr.2.outputs (setRuleDirty pr.1 acc)) s

theorem markDirtyNode_succ (g : Graph) (fuel n : Nat) (s : GState) :
    markDirtyNode g (fuel + 1) n s =
      dirtyRulesFold g fuel (parentRules g n) (setNodeDirty n s) := rfl

@[simp] theorem dirtyNodesFold_nil (g : Graph) (fuel : Nat) (s : GState) :
    dirtyNodesFold g fuel [] s = s := rfl

@[simp] theorem dirtyNodesFold_cons (g : Graph) (fuel o : Nat) (t : List Nat) (s : GState) :
    dirtyNodesFold g fuel (o :: t) s = dirtyNodesFold g fuel t (markDirtyNode g fuel o s) := rfl

@[simp] theorem dirtyRulesFold_nil (g : Graph) (fuel : Nat) (s : GState) :
    dirtyRulesFold g fuel [] s = s := rfl

@[simp] theorem dirtyRulesFold_cons (g : Graph) (fuel : Nat) (pr : Nat × Rule)
    (t : List (Nat × Rule)) (s : GState) :
    dirtyRulesFold g fuel (pr :: t) s =
      dirtyRulesFold g fuel t (dirtyNodesFold g fuel pr.2.outputs (setRuleDirty pr.1 s)) := rfl

@[simp] theorem setNodeDirty_ruleState (n : Nat) (s : GState) :
    (setNodeDirty n s).ruleState = s.ruleState := rfl

@[simp] theorem setRuleDirty_nodeState (i : Nat) (s : GState) :
    (setRuleDirty i s).nodeState = s.nodeState := rfl

/-- One-step unfolding of dependency: reachable means equal or through one
consumer rule's output. -/
theorem DepN_iff (g : Graph) (n k : Nat) :
    DepN g n k ↔ k = n ∨ ∃ pr ∈ parentRules g n, ∃ o ∈ pr.2.outputs, DepN g o k := by
  constructor
  · intro h
    cases h with
    | refl => exact Or.inl rfl
    | step pr o hpr ho h => exact Or.inr ⟨pr, hpr, o, ho, h⟩
  · intro h
    rcases h with rfl | ⟨pr, hpr, o, ho, h⟩
    · exact DepN.refl _
    · exact DepN.step pr o hpr ho h

theorem DepN.trans {g : Graph} {a b c : Nat} (h1 : DepN g a b) (h2 : DepN g b c) :
    DepN g a c := by
  induction h1 with
  | refl => exact h2
  | step pr o hpr ho _ ih => exact DepN.step pr o hpr ho (ih h2)

/-- One-step unfolding of rule dependency. -/
theorem DepR_iff (g : Graph) (n i : Nat) :
    DepR g n i ↔ (∃ r, (i, r) ∈ parentRules g n) ∨
      ∃ pr ∈ parentRules g n, ∃ o ∈ pr.2.outputs, DepR g o i := by
  constructor
  · rintro ⟨m, r, hdep, hmem⟩
    cases hdep with
    | refl => exact Or.inl ⟨r, hmem⟩
    | step pr o hpr ho h => exact Or.inr ⟨pr, hpr, o, ho, m, r, h, hmem⟩
  · intro h
    rcases h with ⟨r, hmem⟩ | ⟨pr, hpr, o, ho, m, r, h, hmem⟩
    · exact ⟨n, r, DepN.refl n, hmem⟩
    · exact ⟨m, r, DepN.step pr o hpr ho h, hmem⟩

/-- The four-part characterization of one `markDirtyNode` call at every
node whose rank leaves it enough fuel: dependents become OUT_OF_DATE,
everything else keeps its state. -/
def MarkDirtyChar (g : Graph) (rank : Nat → Nat) (B fuel : Nat) : Prop :=
  ∀ n s, rank n ≤ B → B + 1 - rank n ≤ fuel →
    (∀ k, DepN g n k → (markDirtyNode g fuel n s).nodeState k = State.OUT_OF_DATE) ∧
    (∀ k, ¬ DepN g n k → (markDirtyNode g fuel n s).nodeState k = s.nodeState k) ∧
    (∀ i, DepR g n i → (markDirtyNode g fuel n s).ruleState i = State.OUT_OF_DATE) ∧
    (∀ i, ¬ DepR g n i → (markDirtyNode g fuel n s).ruleState i = s.ruleState i)

theorem dirtyNodesFold_char {g : Graph} {rank : Nat → Nat} {B fuel : Nat}
    (ih : MarkDirtyChar g rank B fuel) :
    ∀ (l : List Nat) (s : GState),
      (∀ o ∈ l, rank o ≤ B ∧ B + 1 - rank o ≤ fuel) →
      (∀ k, (∃ o ∈ l, DepN g o k) →
        (dirtyNodesFold g fuel l s).nodeState k = State.OUT_OF_DATE) ∧
      (∀ k, (∀ o ∈ l, ¬ DepN g o k) →
        (dirtyNodesFold g fuel l s).nodeState k = s.nodeState k) ∧
      (∀ i, (∃ o ∈ l, DepR g o i) →
        (dirtyNodesFold g fuel l s).ruleState i = State.OUT_OF_DATE) ∧
      (∀ i, (∀ o ∈ l, ¬ DepR g o i) →
        (dirtyNodesFold g fuel l s).ruleState i = s.ruleState i) := by
  intro l
  induction l with
  | nil =>
      intro s _
      refine ⟨?_, ?_, ?_, ?_⟩ <;> simp
  | cons o t iht =>
      intro s hb
      have hbo := hb o (List.mem_cons_self o t)
      have hbt : ∀ o2 ∈ t, rank o2 ≤ B ∧ B + 1 - rank o2 ≤ fuel :=
        fun o2 h2 => hb o2 (List.mem_cons_of_mem o h2)
      obtain ⟨n1, n2, r1, r2⟩ := ih o s hbo.1 hbo.2
      obtain ⟨t1, t2, t3, t4⟩ := iht (markDirtyNode g fuel o s) hbt
      rw [dirtyNodesFold_cons]
      refine ⟨?_, ?_, ?_, ?_⟩
      · intro k hk
        rcases hk with ⟨o2, ho2, hdep⟩
        rcases List.mem_cons.mp ho2 with rfl | ho2t
        · by_cases hc : ∃ o3 ∈ t, DepN g o3 k
          · exact t1 k hc
          · push_neg at hc
            rw [t2 k hc]
            exact n1 k hdep
        · exact t1 k ⟨o2, ho2t, hdep⟩
      · intro k hk
        rw [t2 k (fun o2 h2 => hk o2 (List.mem_cons_of_mem o h2))]
        exact n2 k (hk o (List.mem_cons_self o t))
      · intro i hi
        rcases hi with ⟨o2, ho2, hdep⟩
        rcases List.mem_cons.mp ho2 with rfl | ho2t
        · by_cases hc : ∃ o3 ∈ t, DepR g o3 i
          · exact t3 i hc
          · push_neg at hc
            rw [t4 i hc]
            exact r1 i hdep
        · exact t3 i ⟨o2, ho2t, hdep⟩
      · intro i hi
        rw [t4 i (fun o2 h2 => hi o2 (List.mem_cons_of_mem o h2))]
        exact r2 i (hi o (List.mem_cons_self o t))

theorem dirtyRulesFold_char {g : Graph} {rank : Nat → Nat} {B fuel : Nat}
    (ih : MarkDirtyChar g rank B fuel) :
    ∀ (l : List (Nat × Rule)) (s : GState),
      (∀ pr ∈ l, ∀ o ∈ pr.2.outputs, rank o ≤ B ∧ B + 1 - rank o ≤ fuel) →
      (∀ k, (∃ pr ∈ l, ∃ o ∈ pr.2.outputs, DepN g o k) →
        (dirtyRulesFold g fuel l s).nodeState k = State.OUT_OF_DATE) ∧
      (∀ k, (∀ pr ∈ l, ∀ o ∈ pr.2.outputs, ¬ DepN g o k) →
        (dirtyRulesFold g fuel l s).nodeState k = s.nodeState k) ∧
      (∀ i, ((∃ pr ∈ l, pr.1 = i) ∨ (∃ pr ∈ l, ∃ o ∈ pr.2.outputs, DepR g o i)) →
        (dirtyRulesFold g fuel l s).ruleState i = State.OUT_OF_DATE) ∧
      (∀ i, (∀ pr ∈ l, pr.1 ≠ i) → (∀ pr ∈ l, ∀ o ∈ pr.2.outputs, ¬ DepR g o i) →
        (dirtyRulesFold g fuel l s).ruleState i = s.ruleState i) := by
  intro l
  induction l with
  | nil =>
      intro s _
      refine ⟨?_, ?_, ?_, ?_⟩ <;> simp
  | cons pr t iht =>
      intro s hb
      have hbp := hb pr (List.mem_cons_self pr t)
      have hbt : ∀ pr2 ∈ t, ∀ o ∈ pr2.2.outputs, rank o ≤ B ∧ B + 1 - rank o ≤ fuel :=
        fun pr2 h2 => hb pr2 (List.mem_cons_of_mem pr h2)
      obtain ⟨f1, f2, f3, f4⟩ := dirtyNodesFold_char ih pr.2.outputs (setRuleDirty pr.1 s) hbp
      obtain ⟨t1, t2, t3, t4⟩ :=
        iht (dirtyNodesFold g fuel pr.2.outputs (setRuleDirty pr.1 s)) hbt
      rw [dirtyRulesFold_cons]
      refine ⟨?_, ?_, ?_, ?_⟩
      · intro k hk
        rcases hk with ⟨pr2, hpr2, o, ho, hdep⟩
        rcases List.mem_cons.mp hpr2 with rfl | hpr2t
        · by_cases hc : ∃ pr3 ∈ t, ∃ o3 ∈ pr3.2.outputs, DepN g o3 k
          · exact t1 k hc
          · push_neg at hc
            rw [t2 k hc]
            exact f1 k ⟨o, ho, hdep⟩
        · exact t1 k ⟨pr2, hpr2t, o, ho, hdep⟩
      · intro k hk
        rw [t2 k (fun pr2 h2 => hk pr2 (List.mem_cons_of_mem pr h2))]
        rw [f2 k (hk pr (List.mem_cons_self pr t))]
        simp
      · intro i hi
        have hstep : ∀ s2 : GState, s2.ruleState i = State.OUT_OF_DATE →
            (dirtyRulesFold g fuel t s2).ruleState i = State.OUT_OF_DATE := by
          intro s2 h2
          by_cases hc : (∃ pr3 ∈ t, pr3.1 = i) ∨ (∃ pr3 ∈ t, ∃ o3 ∈ pr3.2.outputs, DepR g o3 i)
          · exact (iht s2 hbt).2.2.1 i hc
          · push_neg at hc
            rw [(iht s2 hbt).2.2.2 i hc.1 hc.2]
            exact h2
        rcases hi with ⟨pr2, hpr2, hfst⟩ | ⟨pr2, hpr2, o, ho, hdep⟩
        · rcases List.mem_cons.mp hpr2 with rfl | hpr2t
          · apply hstep
            by_cases hc : ∃ o3 ∈ pr2.2.outputs, DepR g o3 i
            · exact f3 i hc
            · push_neg at hc
              rw [f4 i hc]
              simp [setRuleDirty, hfst]
          · exact t3 i (Or.inl ⟨pr2, hpr2t, hfst⟩)
        · rcases List.mem_cons.mp hpr2 with rfl | hpr2t
          · apply hstep
            exact f3 i ⟨o, ho, hdep⟩
          · exact t3 i (Or.inr ⟨pr2, hpr2t, o, ho, hdep⟩)
      · intro i hi1 hi2
        rw [t4 i (fun pr2 h2 => hi1 pr2 (List.mem_cons_of_mem pr h2))
              (fun pr2 h2 => hi2 pr2 (List.mem_cons_of_mem pr h2))]
        rw [f4 i (hi2 pr (List.mem_cons_self pr t))]
        have hne := hi1 pr (List.mem_cons_self pr t)
        simp [setRuleDirty]
        intro heq
        exact absurd heq.symm hne

/-- With an acyclicity rank, every sufficiently fuelled `markDirtyNode` call
satisfies the characterization: exactly the transitive dependents (and
their consumer rules) become OUT_OF_DATE. -/
theorem markDirty_char {g : Graph} {rank : Nat → Nat} {B : Nat}
    (hR : RankOk g rank B) : ∀ fuel, MarkDirtyChar g rank B fuel := by
  intro fuel
  induction fuel with
  | zero =>
      intro n s hn hf
      exact absurd hf (by omega)
  | succ f ihf =>
      intro n s hn hf
      have hb : ∀ pr ∈ parentRules g n, ∀ o ∈ pr.2.outputs,
          rank o ≤ B ∧ B + 1 - rank o ≤ f := by
        intro pr hpr o ho
        have h1 := mem_parentRules_iff.mp hpr
        have h2 := hR pr.2 (parentRules_rule_mem hpr) n h1.2 o ho
        exact ⟨h2.2, by omega⟩
      obtain ⟨t1, t2, t3, t4⟩ := dirtyRulesFold_char ihf (parentRules g n) (setNodeDirty n s) hb
      refine ⟨?_, ?_, ?_, ?_⟩
      · intro k hdep
        rw [markDirtyNode_succ]
        rcases (DepN_iff g n k).mp hdep with heq | ⟨pr, hpr, o, ho, hdep2⟩
        · subst heq
          by_cases hc : ∃ pr ∈ parentRules g k, ∃ o ∈ pr.2.outputs, DepN g o k
          · exact t1 k hc
          · push_neg at hc
            rw [t2 k hc]
            simp [setNodeDirty]
        · exact t1 k ⟨pr, hpr, o, ho, hdep2⟩
      · intro k hndep
        rw [markDirtyNode_succ]
        have hkn : k ≠ n := fun heq => hndep (by rw [heq]; exact DepN.refl n)
        have hall : ∀ pr ∈ parentRules g n, ∀ o ∈ pr.2.outputs, ¬ DepN g o k :=
          fun pr hpr o ho hdep2 => hndep (DepN.step pr o hpr ho hdep2)
        rw [t2 k hall]
        simp [setNodeDirty, hkn]
      · intro i hdepr
        rw [markDirtyNode_succ]
        rcases (DepR_iff g n i).mp hdepr with ⟨r, hmem⟩ | ⟨pr, hpr, o, ho, hdepr2⟩
        · exact t3 i (Or.inl ⟨(i, r), hmem, rfl⟩)
        · exact t3 i (Or.inr ⟨pr, hpr, o, ho, hdepr2⟩)
      · intro i hndepr
        rw [markDirtyNode_succ]
        have h1 : ∀ pr ∈ parentRules g n, pr.1 ≠ i := by
          intro pr hpr heq
          refine hndepr ((DepR_iff g n i).mpr (Or.inl ⟨pr.2, ?_⟩))
          rw [← heq]
          exact hpr
        have h2 : ∀ pr ∈ parentRules g n, ∀ o ∈ pr.2.outputs, ¬ DepR g o i :=
          fun pr hpr o ho hd => hndepr ((DepR_iff g n i).mpr (Or.inr ⟨pr, hpr, o, ho, hd⟩))
        rw [t4 i h1 h2]
        simp [setNodeDirty]

/-! ### C3 -/

/-- C3: for every acyclic graph (witnessed by a rank function) and every
node `n`, after `markDirty(n)` every transitive dependent of `n` (every
node reachable via consumer-rule to output edges, `n` included) is
OUT_OF_DATE; the operation is idempotent (running it again leaves the
whole state vector unchanged); and it terminates: the result does not
depend on the fuel once the fuel exceeds the rank bound, which is what
the bounded C++ recursion depth on an acyclic graph means here. -/
theorem markDirty_marks_all_dependents (g : Graph) (rank : Nat → Nat) (B : Nat)
    (hR : RankOk g rank B) (n : Nat) (hn : rank n ≤ B) (fuel : Nat)
    (hfuel : B + 1 ≤ fuel) (s : GState) :
    (∀ k, DepN g n k → (markDirtyNode g fuel n s).nodeState k = State.OUT_OF_DATE) ∧
    markDirtyNode g fuel n (markDirtyNode g fuel n s) = markDirtyNode g fuel n s ∧
    (∀ fuel2, B + 1 ≤ fuel2 → markDirtyNode g fuel2 n s = markDirtyNode g fuel n s) := by
  have hch := markDirty_char hR
  have hb : B + 1 - rank n ≤ fuel := by omega
  obtain ⟨c1, c2, c3, c4⟩ := hch fuel n s hn hb
  refine ⟨c1, ?_, ?_⟩
  · obtain ⟨d1, d2, d3, d4⟩ := hch fuel n (markDirtyNode g fuel n s) hn hb
    refine GState.ext (funext fun k => ?_) (funext fun i => ?_)
    · by_cases hk : DepN g n k
      · rw [d1 k hk, c1 k hk]
      · rw [d2 k hk]
    · by_cases hi : DepR g n i
      · rw [d3 i hi, c3 i hi]
      · rw [d4 i hi]
  · intro fuel2 hf2
    obtain ⟨e1, e2, e3, e4⟩ := hch fuel2 n s hn (by omega)
    refine GState.ext (funext fun k => ?_) (funext fun i => ?_)
    · by_cases hk : DepN g n k
      · rw [e1 k hk, c1 k hk]
      · rw [e2 k hk, c2 k hk]
    · by_cases hi : DepR g n i
      · rw [e3 i hi, c3 i hi]
      · rw [e4 i hi, c4 i hi]

/-- The chain graph x -R0-> y -R1-> z used as a concrete instance. -/
def gChain : Graph :=
  ⟨["x", "y", "z"], [⟨[0], [1], "cat x > y", ""⟩, ⟨[1], [2], "cat y > z", ""⟩]⟩

/-- The all-UP_TO_DATE state vector. -/
def sAllUp : GState := ⟨fun _ => State.UP_TO_DATE, fun _ => State.UP_TO_DATE⟩

/-- Witness for C3 on the chain graph, marking the source dirty. -/
theorem markDirty_marks_all_dependents_witness :
    (∀ k, DepN gChain 0 k →
      (markDirtyNode gChain 3 0 sAllUp).nodeState k = State.OUT_OF_DATE) ∧
    markDirtyNode gChain 3 0 (markDirtyNode gChain 3 0 sAllUp) =
      markDirtyNode gChain 3 0 sAllUp ∧
    (∀ fuel2, 2 + 1 ≤ fuel2 →
      markDirtyNode gChain fuel2 0 sAllUp = markDirtyNode gChain 3 0 sAllUp) :=
  markDirty_marks_all_dependents gChain (fun k => k) 2 (by decide) 0 (by decide)
    3 (by decide) sAllUp

/-! ### C4: the rule/outputs state equivalence -/

/-- Spec 3 invariant 4 as stated by C4: a rule is UP_TO_DATE exactly when
all of its outputs are. -/
def RuleOutputsInv (g : Graph) (s : GState) : Prop :=
  ∀ pr ∈ g.rules.enum,
    (s.ruleState pr.1 = State.UP_TO_DATE ↔
      ∀ o ∈ pr.2.outputs, s.nodeState o = State.UP_TO_DATE)

instance (g : Graph) (s : GState) : Decidable (RuleOutputsInv g s) := by
  unfold RuleOutputsInv; infer_instance

/-- Spec 3 invariant 3: at most one producing rule per node (no two rules
share an output). -/
def UniqueOut (g : Graph) : Prop :=
  ∀ p ∈ g.rules.enum, ∀ q ∈ g.rules.enum, ∀ o : Nat,
    o ∈ p.2.outputs → o ∈ q.2.outputs → p = q

instance (g : Graph) : Decidable (UniqueOut g) := by
  unfold UniqueOut; infer_instance

/-- The graph x -R0-> y: a single rule producing y from x. -/
def gPair : Graph := ⟨["x", "y"], [⟨[0], [1], "cat x > y", ""⟩]⟩

@[simp] theorem setRuleUpToDate_nodeState (i : Nat) (s : GState) :
    (setRuleUpToDate i s).nodeState = s.nodeState := rfl

theorem setRuleUpToDate_ruleState_ne {i j : Nat} (s : GState) (h : j ≠ i) :
    (setRuleUpToDate i s).ruleState j = s.ruleState j := by
  simp [setRuleUpToDate, h]

theorem upRuleStep_nodeState (s : GState) (pr : Nat × Rule) :
    (upRuleStep s pr).nodeState = s.nodeState := by
  unfold upRuleStep; split <;> rfl

theorem upFold_nodeState : ∀ (l : List (Nat × Rule)) (s0 : GState),
    (l.foldl upRuleStep s0).nodeState = s0.nodeState := by
  intro l
  induction l with
  | nil => intro s0; rfl
  | cons q t ih =>
      intro s0
      rw [List.foldl_cons, ih, upRuleStep_nodeState]

theorem upFold_ruleState_notmem : ∀ (l : List (Nat × Rule)) (s0 : GState) (i : Nat),
    (∀ pr ∈ l, pr.1 ≠ i) → (l.foldl upRuleStep s0).ruleState i = s0.ruleState i := by
  intro l
  induction l with
  | nil => intro s0 i _; rfl
  | cons q t ih =>
      intro s0 i h
      rw [List.foldl_cons, ih _ i (fun pr hpr => h pr (List.mem_cons_of_mem q hpr))]
      unfold upRuleStep
      split
      · exact setRuleUpToDate_ruleState_ne s0 (h q (List.mem_cons_self q t)).symm
      · rfl

theorem upFold_ruleState_mem : ∀ (l : List (Nat × Rule)) (s0 : GState) (pr : Nat × Rule),
    pr ∈ l → (l.map Prod.fst).Nodup →
    (l.foldl upRuleStep s0).ruleState pr.1 =
      if pr.2.outputs.all (fun o => decide (s0.nodeState o = State.UP_TO_DATE)) then
        State.UP_TO_DATE
      else s0.ruleState pr.1 := by
  intro l
  induction l with
  | nil => intro s0 pr h; simp at h
  | cons q t ih =>
      intro s0 pr hmem hnd
      rw [List.map_cons] at hnd
      have hnd2 := List.nodup_cons.mp hnd
      rw [List.foldl_cons]
      rcases List.mem_cons.mp hmem with rfl | hmemt
      · have htail : ∀ q2 ∈ t, q2.1 ≠ pr.1 := by
          intro q2 hq2 heq
          exact hnd2.1 (heq ▸ List.mem_map_of_mem Prod.fst hq2)
        rw [upFold_ruleState_notmem t _ pr.1 htail]
        unfold upRuleStep
        by_cases hc :
            pr.2.outputs.all (fun o => decide (s0.nodeState o = State.UP_TO_DATE)) = true
        · rw [if_pos hc, if_pos hc]
          simp [setRuleUpToDate]
        · rw [if_neg hc, if_neg hc]
      · have hq1 : q.1 ≠ pr.1 := by
          intro heq
          exact hnd2.1 (heq ▸ List.mem_map_of_mem Prod.fst hmemt)
        rw [ih (upRuleStep s0 q) pr hmemt hnd2.2]
        have h1 : (upRuleStep s0 q).nodeState = s0.nodeState := upRuleStep_nodeState s0 q
        have h2 : (upRuleStep s0 q).ruleState pr.1 = s0.ruleState pr.1 := by
          unfold upRuleStep
          split
          · exact setRuleUpToDate_ruleState_ne s0 hq1.symm
          · rfl
        rw [h1, h2]

theorem parentRules_fst_nodup (g : Graph) (n : Nat) :
    ((parentRules g n).map Prod.fst).Nodup := by
  have h1 : List.Sublist (parentRules g n) g.rules.enum := List.filter_sublist _
  have h2 := h1.map Prod.fst
  refine List.Nodup.sublist h2 ?_
  rw [List.enum_map_fst]
  exact List.nodup_range _

/-- When a node other than the start is reachable, it has a producing rule
along the reachability path. -/
theorem DepN_producer {g : Graph} {n z : Nat} (h : DepN g n z) :
    z ≠ n → ∃ m pr, DepN g n m ∧ pr ∈ parentRules g m ∧ z ∈ pr.2.outputs := by
  induction h with
  | refl => intro hne; exact absurd rfl hne
  | @step n2 k2 pr o hpr ho h ih =>
      intro _
      by_cases hz : k2 = o
      · exact ⟨n2, pr, DepN.refl n2, hpr, by rw [hz]; exact ho⟩
      · obtain ⟨m, pr2, hdep, hpr2, hz2⟩ := ih hz
        exact ⟨m, pr2, DepN.step pr o hpr ho hdep, hpr2, hz2⟩

/-- C4 counterexample: on the graph x -R0-> y, starting from the
all-UP_TO_DATE states (where the equivalence holds), the public operation
`setDirty("y")` / `y.markDirty()` leaves R0 UP_TO_DATE while its output y
becomes OUT_OF_DATE, so the claimed equivalence fails after a public
graph operation. -/
theorem ruleStateInv_not_preserved :
    RuleOutputsInv gPair sAllUp ∧
      ¬ RuleOutputsInv gPair (markDirtyNode gPair 2 1 sAllUp) := by decide

/-- C4 amended: the equivalence `R UP_TO_DATE iff all outputs UP_TO_DATE`
is preserved by `markDirty(n)` and by `markUpToDate(n)` for every rule
that does not have the directly marked node `n` among its outputs (the
producing rule of `n` can violate it, as the counterexample shows). -/
theorem ruleStateInv_outside_producer (g : Graph) (rank : Nat → Nat) (B : Nat)
    (hR : RankOk g rank B) (huq : UniqueOut g)
    (hone : ∀ r ∈ g.rules, r.outputs ≠ [])
    (n : Nat) (hn : rank n ≤ B) (fuel : Nat) (hfuel : B + 1 ≤ fuel)
    (s : GState) (hInv : RuleOutputsInv g s) :
    (∀ pr ∈ g.rules.enum, n ∉ pr.2.outputs →
      ((markDirtyNode g fuel n s).ruleState pr.1 = State.UP_TO_DATE ↔
        ∀ o ∈ pr.2.outputs, (markDirtyNode g fuel n s).nodeState o = State.UP_TO_DATE)) ∧
    (∀ pr ∈ g.rules.enum, n ∉ pr.2.outputs →
      ((markUpToDate g n s).ruleState pr.1 = State.UP_TO_DATE ↔
        ∀ o ∈ pr.2.outputs, (markUpToDate g n s).nodeState o = State.UP_TO_DATE)) := by
  obtain ⟨c1, c2, c3, c4⟩ := markDirty_char hR fuel n s hn (by omega)
  constructor
  · intro pr hpr hnout
    by_cases hdr : DepR g n pr.1
    · rw [c3 pr.1 hdr]
      apply iff_of_false
      · simp
      · intro hall
        have hrule : pr.2 ∈ g.rules := mem_enumFrom_snd g.rules 0 pr hpr
        obtain ⟨o0, ho0⟩ := List.exists_mem_of_ne_nil _ (hone pr.2 hrule)
        obtain ⟨m, r, hdep, hmem⟩ := hdr
        have hmem_enum : (pr.1, r) ∈ g.rules.enum := (mem_parentRules_iff.mp hmem).1
        have hpreq : (pr.1, r) = pr :=
          enumFrom_fst_inj g.rules 0 (pr.1, r) pr hmem_enum hpr rfl
        have hprm : pr ∈ parentRules g m := by rw [← hpreq]; exact hmem
        have hdepo : DepN g n o0 :=
          DepN.trans hdep (DepN.step pr o0 hprm ho0 (DepN.refl o0))
        have hup := hall o0 ho0
        rw [c1 o0 hdepo] at hup
        exact absurd hup (by simp)
    · rw [c4 pr.1 hdr]
      have houts : ∀ o ∈ pr.2.outputs, ¬ DepN g n o := by
        intro o ho hdep
        by_cases hon : o = n
        · exact hnout (hon ▸ ho)
        · obtain ⟨m, pr2, hdepm, hpr2, ho2⟩ := DepN_producer hdep hon
          have hpr2enum := (mem_parentRules_iff.mp hpr2).1
          have heq : pr2 = pr := huq pr2 hpr2enum pr hpr o ho2 ho
          refine hdr ⟨m, pr.2, hdepm, ?_⟩
          rw [← heq]
          exact hpr2
      constructor
      · intro hup o ho
        rw [c2 o (houts o ho)]
        exact (hInv pr hpr).mp hup o ho
      · intro hall
        refine (hInv pr hpr).mpr fun o ho => ?_
        rw [← c2 o (houts o ho)]
        exact hall o ho
  · intro pr hpr hnout
    have hnodeeq : ∀ o, (markUpToDate g n s).nodeState o = (setNodeUpToDate n s).nodeState o := by
      intro o
      unfold markUpToDate
      rw [upFold_nodeState]
    have hnodes : ∀ o ∈ pr.2.outputs, (markUpToDate g n s).nodeState o = s.nodeState o := by
      intro o ho
      rw [hnodeeq o]
      have hon : o ≠ n := fun h => hnout (h ▸ ho)
      simp [setNodeUpToDate, hon]
    by_cases hmem : pr ∈ parentRules g n
    · have hrs : (markUpToDate g n s).ruleState pr.1 =
          if pr.2.outputs.all
              (fun o => decide ((setNodeUpToDate n s).nodeState o = State.UP_TO_DATE)) then
            State.UP_TO_DATE
          else (setNodeUpToDate n s).ruleState pr.1 := by
        unfold markUpToDate
        exact upFold_ruleState_mem (parentRules g n) (setNodeUpToDate n s) pr hmem
          (parentRules_fst_nodup g n)
      by_cases hcond : ∀ o ∈ pr.2.outputs, s.nodeState o = State.UP_TO_DATE
      · have hbool : pr.2.outputs.all
            (fun o => decide ((setNodeUpToDate n s).nodeState o = State.UP_TO_DATE)) = true := by
          rw [List.all_eq_true]
          intro o ho
          have hon : o ≠ n := fun h => hnout (h ▸ ho)
          simp [setNodeUpToDate, hon, hcond o ho]
        rw [hrs, if_pos hbool]
        apply iff_of_true rfl
        intro o ho
        rw [hnodes o ho]
        exact hcond o ho
      · have hbool : pr.2.outputs.all
            (fun o => decide ((setNodeUpToDate n s).nodeState o = State.UP_TO_DATE)) = false := by
          by_contra hbt
          rw [Bool.not_eq_false, List.all_eq_true] at hbt
          apply hcond
          intro o ho
          have hon : o ≠ n := fun h => hnout (h ▸ ho)
          have hbo := hbt o ho
          simp [setNodeUpToDate, hon] at hbo
          exact hbo
        rw [hrs, if_neg (by simp [hbool])]
        have hsr : (setNodeUpToDate n s).ruleState pr.1 = s.ruleState pr.1 := rfl
        rw [hsr]
        apply iff_of_false
        · intro hup
          exact hcond ((hInv pr hpr).mp hup)
        · intro hall
          apply hcond
          intro o ho
          rw [← hnodes o ho]
          exact hall o ho
    · have hnofst : ∀ q ∈ parentRules g n, q.1 ≠ pr.1 := by
        intro q hq heq
        apply hmem
        have hqenum := (mem_parentRules_iff.mp hq).1
        have hpq : q = pr := enumFrom_fst_inj g.rules 0 q pr hqenum hpr heq
        rw [← hpq]
        exact hq
      have hrs : (markUpToDate g n s).ruleState pr.1 = s.ruleState pr.1 := by
        unfold markUpToDate
        exact upFold_ruleState_notmem _ _ _ hnofst
      rw [hrs]
      constructor
      · intro hup o ho
        rw [hnodes o ho]
        exact (hInv pr hpr).mp hup o ho
      · intro hall
        refine (hInv pr hpr).mpr fun o ho => ?_
        rw [← hnodes o ho]
        exact hall o ho

/-- Witness for the amended C4 on the chain graph, marking the middle node
dirty: rule R1 (which consumes y and produces z) keeps the equivalence. -/
theorem ruleStateInv_outside_producer_witness :
    ((∀ pr ∈ gChain.rules.enum, 1 ∉ pr.2.outputs →
      ((markDirtyNode gChain 3 1 sAllUp).ruleState pr.1 = State.UP_TO_DATE ↔
        ∀ o ∈ pr.2.outputs,
          (markDirtyNode gChain 3 1 sAllUp).nodeState o = State.UP_TO_DATE)) ∧
    (∀ pr ∈ gChain.rules.enum, 1 ∉ pr.2.outputs →
      ((markUpToDate gChain 1 sAllUp).ruleState pr.1 = State.UP_TO_DATE ↔
        ∀ o ∈ pr.2.outputs,
          (markUpToDate gChain 1 sAllUp).nodeState o = State.UP_TO_DATE))) :=
  ruleStateInv_outside_producer gChain (fun k => k) 2 (by decide) (by decide)
    (by decide) 1 (by decide) 3 (by decide) sAllUp (by decide)

/-! ## Daemon commands (src/daemon_instance.cpp) -/

/-- Errors surfaced to the RPC client (src/exceptions.h is external; only
`TargetNotFound`, thrown by `DaemonInstance::setDirty`, matters here). -/
inductive DaemonError where
  | TargetNotFound
  deriving DecidableEq, Repr

/-- The `NodeMap::find(target)` lookup of `DaemonInstance::setDirty`
(daemon_instance.cpp:111-113): node ids are indices into the path list. -/
def findNodeId : List String → String → Option Nat
  | [], _ => none
  | p :: rest, target =>
      if p = target then some 0 else (findNodeId rest target).map (· + 1)

theorem findNodeId_none_iff : ∀ (l : List String) (t : String),
    findNodeId l t = none ↔ t ∉ l := by
  intro l
  induction l with
  | nil => intro t; simp [findNodeId]
  | cons p rest ih =>
      intro t
      by_cases hp : p = t
      · simp [findNodeId, hp]
      · have hstep : findNodeId (p :: rest) t = (findNodeId rest t).map (· + 1) := by
          simp [findNodeId, hp]
        rw [hstep, Option.map_eq_none', ih t]
        constructor
        · intro h hmem
          rcases List.mem_cons.mp hmem with heq | hmem2
          · exact hp heq.symm
          · exact h hmem2
        · intro h hmem
          exact h (List.mem_cons_of_mem p hmem)

theorem findNodeId_some_get : ∀ (l : List String) (t : String) (n : Nat),
    findNodeId l t = some n → l.get? n = some t := by
  intro l
  induction l with
  | nil => intro t n h; simp [findNodeId] at h
  | cons p rest ih =>
      intro t n h
      by_cases hp : p = t
      · simp [findNodeId, hp] at h
        subst h
        simp [hp]
      · simp [findNodeId, hp] at h
        obtain ⟨m, hm, hn⟩ := h
        subst hn
        simpa using ih t m hm

/-- `DaemonInstance::setDirty` (daemon_instance.cpp:107-117): look the
target up in the graph's node map; if absent, throw TargetNotFound (the
state is left untouched); otherwise call `markDirty` on the found node. -/
def setDirty (g : Graph) (fuel : Nat) (s : GState) (target : String) :
    Option DaemonError × GState :=
  match findNodeId g.nodePaths target with
  | none => (some DaemonError.TargetNotFound, s)
  | some n => (none, markDirtyNode g fuel n s)

/-- C7: `setDirty(target)` throws TargetNotFound exactly when the target is
not a key of the node map; when it throws, the state vector is returned
unchanged; when it does not throw, it invokes `markDirty` on the node
whose path is the target. -/
theorem setDirty_spec (g : Graph) (fuel : Nat) (s : GState) (target : String) :
    ((setDirty g fuel s target).1 = some DaemonError.TargetNotFound ↔
      target ∉ g.nodePaths) ∧
    (target ∉ g.nodePaths → (setDirty g fuel s target).2 = s) ∧
    (∀ n, findNodeId g.nodePaths target = some n →
      setDirty g fuel s target = (none, markDirtyNode g fuel n s) ∧
      g.nodePaths.get? n = some target) := by
  unfold setDirty
  cases hf : findNodeId g.nodePaths target with
  | none =>
      have hmem := (findNodeId_none_iff g.nodePaths target).mp hf
      refine ⟨by simpa using hmem, fun _ => rfl, ?_⟩
      intro n hn
      exact absurd hn (by simp)
  | some n =>
      have hmem : target ∈ g.nodePaths := by
        by_contra hc
        rw [(findNodeId_none_iff g.nodePaths target).mpr hc] at hf
        exact absurd hf (by simp)
      refine ⟨by simp [hmem], fun h => absurd hmem h, ?_⟩
      intro m hm
      obtain rfl : n = m := by simpa using hm
      exact ⟨rfl, findNodeId_some_get g.nodePaths target n hf⟩

/-! ## C2: the startBuild / onBuildCompleted busy protocol
(daemon_instance.cpp:48-80) -/

/-- RPC result of `startBuild` (thrift-defined, used by
daemon_instance.cpp:48-67). -/
inductive StartBuildResult where
  | OK
  | BUSY
  deriving DecidableEq, Repr

/-- The daemon events relevant to the busy protocol: an RPC `startBuild`
call and an invocation of the completion callback `onBuildCompleted`. -/
inductive DEvent where
  | start
  | completed
  deriving DecidableEq, Repr

/-- `DaemonInstance::startBuild` on the `isBuilding_` flag
(daemon_instance.cpp:48-67): BUSY and no change if a build is in
progress; otherwise set the flag and return OK. -/
def startBuildStep (isBuilding : Bool) : Bool × StartBuildResult :=
  if isBuilding then (isBuilding, StartBuildResult.BUSY)
  else (true, StartBuildResult.OK)

/-- `DaemonInstance::onBuildCompleted` (daemon_instance.cpp:69-80): clear
the `isBuilding_` flag. -/
def onBuildCompletedStep (_ : Bool) : Bool := false

/-- One event's effect on the `isBuilding_` flag. -/
def daemonStep (b : Bool) : DEvent → Bool
  | DEvent.start => (startBuildStep b).1
  | DEvent.completed => onBuildCompletedStep b

/-- The `isBuilding_` flag after a sequence of events, starting from the
constructor's `isBuilding_(false)` (daemon_instance.cpp:17-21). -/
def runDaemon (tr : List DEvent) : Bool := tr.foldl daemonStep false

theorem runDaemon_append (tr : List DEvent) (e : DEvent) :
    runDaemon (tr ++ [e]) = daemonStep (runDaemon tr) e := by
  unfold runDaemon
  rw [List.foldl_append]
  rfl

theorem busy_iff_flag (b : Bool) :
    (startBuildStep b).2 = StartBuildResult.BUSY ↔ b = true := by
  cases b <;> simp [startBuildStep]

theorem ok_iff_flag (b : Bool) :
    (startBuildStep b).2 = StartBuildResult.OK ↔ b = false := by
  cases b <;> simp [startBuildStep]

/-- The flag is set exactly when some prior `startBuild` returned OK with
no `onBuildCompleted` after it. -/
theorem runDaemon_true_iff : ∀ tr : List DEvent,
    runDaemon tr = true ↔
      ∃ pre post, tr = pre ++ DEvent.start :: post ∧
        runDaemon pre = false ∧ DEvent.completed ∉ post := by
  intro tr
  induction tr using List.reverseRecOn with
  | nil =>
      constructor
      · intro h
        exact absurd h (by simp [runDaemon])
      · rintro ⟨pre, post, heq, -, -⟩
        exact absurd heq (by simp)
  | append_singleton ts e ih =>
      rw [runDaemon_append]
      cases e with
      | completed =>
          simp only [daemonStep, onBuildCompletedStep]
          constructor
          · intro h; exact absurd h (by simp)
          · rintro ⟨pre, post, heq, _, hnot⟩
            exfalso
            induction post using List.reverseRecOn with
            | nil =>
                have := congrArg List.getLast? heq
                rw [List.getLast?_concat] at this
                have h2 : (pre ++ [DEvent.start]).getLast? = some DEvent.start := by
                  rw [List.getLast?_concat]
                rw [show pre ++ DEvent.start :: ([] : List DEvent) = pre ++ [DEvent.start] from rfl,
                   h2] at this
                simp at this
            | append_singleton ps x _ =>
                have := congrArg List.getLast? heq
                rw [List.getLast?_concat] at this
                have h2 : (pre ++ DEvent.start :: (ps ++ [x])).getLast? = some x := by
                  rw [show pre ++ DEvent.start :: (ps ++ [x]) =
                        (pre ++ DEvent.start :: ps) ++ [x] from by simp,
                     List.getLast?_concat]
                rw [h2] at this
                obtain rfl : DEvent.completed = x := by simpa using this
                exact hnot (by simp)
      | start =>
          simp only [daemonStep]
          constructor
          · intro _
            by_cases hts : runDaemon ts = true
            · obtain ⟨pre, post, heq, hpre, hnot⟩ := ih.mp hts
              refine ⟨pre, post ++ [DEvent.start], by rw [heq]; simp, hpre, ?_⟩
              simp [hnot]
            · refine ⟨ts, [], rfl, by simpa using hts, by simp⟩
          · intro _
            unfold startBuildStep
            by_cases hb : runDaemon ts = true
            · rw [if_pos hb]
              exact hb
            · rw [if_neg hb]

/-- C2: over every sequence of `startBuild` / `onBuildCompleted` events,
the next `startBuild` returns BUSY exactly when some prior `startBuild`
returned OK and the completion callback has not run since; otherwise it
returns OK and sets the building flag (a new build is started). -/
theorem startBuild_busy_iff (tr : List DEvent) :
    ((startBuildStep (runDaemon tr)).2 = StartBuildResult.BUSY ↔
      ∃ pre post, tr = pre ++ DEvent.start :: post ∧
        (startBuildStep (runDaemon pre)).2 = StartBuildResult.OK ∧
        DEvent.completed ∉ post) ∧
    ((startBuildStep (runDaemon tr)).2 = StartBuildResult.OK →
      (startBuildStep (runDaemon tr)).1 = true) := by
  constructor
  · rw [busy_iff_flag, runDaemon_true_iff tr]
    constructor
    · rintro ⟨pre, post, heq, hpre, hnot⟩
      exact ⟨pre, post, heq, (ok_iff_flag _).mpr hpre, hnot⟩
    · rintro ⟨pre, post, heq, hok, hnot⟩
      exact ⟨pre, post, heq, (ok_iff_flag _).mp hok, hnot⟩
  · intro h
    have hb := (ok_iff_flag _).mp h
    rw [hb]
    rfl

/-! ## C5: DaemonInstance::shutdown (daemon_instance.cpp:119-123) -/

/-- The daemon-level state relevant to `shutdown`: the builder (if any),
its interruption flag, whether the stream server's `stopped_` flag has
been raised, and whether the daemon process has exited. -/
structure DaemonState where
  builderExists : Bool
  builderInterrupted : Bool
  streamStopped : Bool
  daemonExited : Bool
  deriving DecidableEq, Repr

/-- `DaemonInstance::interruptBuild` (daemon_instance.cpp:88-94): forward
the interruption to the builder when one exists. -/
def interruptBuild (d : DaemonState) : DaemonState :=
  if d.builderExists then { d with builderInterrupted := true } else d

/-- `StreamServer::stop` (stream_server.cpp:84-87) as seen from the
daemon: set the server's `stopped_` flag (and wake its poll loop), which
makes `StreamServer::run` exit. -/
def streamServerStop (d : DaemonState) : DaemonState :=
  { d with streamStopped := true }

/-- `DaemonInstance::shutdown` (daemon_instance.cpp:119-123): it calls
`interruptBuild()` and nothing else; stopping the stream server is left
as a `TODO` comment in the source and never happens, and the daemon does
not exit. -/
def shutdown (d : DaemonState) : DaemonState :=
  interruptBuild d

/-- C5 evaluated on the code: `shutdown` interrupts the current build when
one exists, but it leaves the stream server's stopped flag untouched
(while `StreamServer::stop` would set it) and does not exit the daemon. -/
theorem shutdown_leaves_server_running (d : DaemonState) :
    (d.builderExists = true → (shutdown d).builderInterrupted = true) ∧
    (shutdown d).streamStopped = d.streamStopped ∧
    (shutdown d).daemonExited = d.daemonExited ∧
    (streamServerStop d).streamStopped = true := by
  unfold shutdown interruptBuild streamServerStop
  by_cases hb : d.builderExists = true
  · rw [if_pos hb]
    exact ⟨fun _ => rfl, rfl, rfl, rfl⟩
  · rw [if_neg hb]
    exact ⟨fun h => absurd h hb, rfl, rfl, rfl⟩

/-! ## C6: JSON escaping (stream_server.cpp:348-362,
StreamServer::writeBufEscapeJson) -/

/-- The per-byte case of `StreamServer::writeBufEscapeJson`: a double
quote or backslash is preceded by a backslash, a newline becomes the two
characters backslash-n, and any other byte is pushed unchanged. -/
def escapeJsonChar (c : Char) : List Char :=
  if c = '"' ∨ c = '\\' then ['\\', c]
  else if c = '\n' then ['\\', 'n']
  else [c]

/-- `StreamServer::writeBufEscapeJson` (stream_server.cpp:348-362): the
loop over the buffer, appending the escape of each byte in order. -/
def escapeJson : List Char → List Char
  | [] => []
  | c :: rest => escapeJsonChar c ++ escapeJson rest

/-- C6: the escaping function is exactly the per-byte map concatenated in
order — so no byte is dropped, reordered or altered beyond its own
escape — and the per-byte escape rewrites exactly the three bytes
double-quote, backslash and newline, leaving every other byte unchanged. -/
theorem escapeJson_spec (l : List Char) :
    escapeJson l = l.flatMap escapeJsonChar ∧
    escapeJsonChar '"' = ['\\', '"'] ∧
    escapeJsonChar '\\' = ['\\', '\\'] ∧
    escapeJsonChar '\n' = ['\\', 'n'] ∧
    (∀ c : Char, c ≠ '"' → c ≠ '\\' → c ≠ '\n' → escapeJsonChar c = [c]) := by
  refine ⟨?_, by decide, by decide, by decide, ?_⟩
  · induction l with
    | nil => rfl
    | cons c rest ih => rw [escapeJson, ih, List.flatMap_cons]
  · intro c h1 h2 h3
    unfold escapeJsonChar
    rw [if_neg (by simp [h1, h2]), if_neg h3]

/-! ## C8: option registration (src/main.cpp, setOptions) -/

/-- The default value attached to a registered option
(`po::value<T>()->default_value(...)`). -/
inductive OptDefault where
  | noDefault
  | str (s : String)
  | int (n : Int)
  | logSeverity (s : String)
  deriving DecidableEq, Repr

/-- One configuration-file option registered through
`Options::addCFileOption`. -/
structure CFileOption where
  name : String
  dflt : OptDefault
  deriving DecidableEq, Repr

/-- `setOptions` (main.cpp:22-63), restricted to the configuration-file
options it registers.  `pwd` is `getenv("PWD")`: when it is absent the
function logs an error and returns before registering anything
(main.cpp:24-29); otherwise it registers exactly six options with these
defaults (main.cpp:45-62). -/
def setOptions (pwd : Option String) : List CFileOption :=
  match pwd with
  | none => []
  | some pwdString =>
      [⟨"working-directory", OptDefault.str pwdString⟩,
       ⟨"graph", OptDefault.str "makefile.json"⟩,
       ⟨"api-port", OptDefault.int 4242⟩,
       ⟨"stream-port", OptDefault.int 4343⟩,
       ⟨"log-level", OptDefault.logSeverity "GLOG_WARNING"⟩,
       ⟨"log-dir", OptDefault.noDefault⟩]

/-- The option set asserted by the claim (spec 6, "Configuration"). -/
def claimedOptionNames : List String :=
  ["working-directory", "graph", "api-port", "stream-port",
   "log-level", "log-dir", "sequential-build"]

/-- C8 counterexample: the claim requires `sequential-build` to be among
the registered configuration-file options, but `setOptions` never
registers it, so the registered set is not the claimed set. -/
theorem setOptions_missing_sequential_build :
    "sequential-build" ∈ claimedOptionNames ∧
    "sequential-build" ∉ (setOptions (some "/home/user")).map CFileOption.name ∧
    (setOptions (some "/home/user")).map CFileOption.name ≠ claimedOptionNames := by
  refine ⟨by decide, by decide, by decide⟩

/-- C8 amended: when `getenv("PWD")` yields a value, the registered
configuration-file options are exactly working-directory (defaulting to
the PWD value), graph (default makefile.json), api-port (default 4242),
stream-port (default 4343), log-level (default GLOG_WARNING) and log-dir
(no default) — without `sequential-build`; when PWD is unset, nothing is
registered at all. -/
theorem setOptions_registered (pwd : String) :
    (setOptions (some pwd)).map CFileOption.name =
      ["working-directory", "graph", "api-port", "stream-port",
       "log-level", "log-dir"] ∧
    ((setOptions (some pwd)).find? (fun o => o.name == "working-directory")).map
        CFileOption.dflt = some (OptDefault.str pwd) ∧
    ((setOptions (some pwd)).find? (fun o => o.name == "graph")).map
        CFileOption.dflt = some (OptDefault.str "makefile.json") ∧
    ((setOptions (some pwd)).find? (fun o => o.name == "api-port")).map
        CFileOption.dflt = some (OptDefault.int 4242) ∧
    ((setOptions (some pwd)).find? (fun o => o.name == "stream-port")).map
        CFileOption.dflt = some (OptDefault.int 4343) ∧
    "sequential-build" ∉ (setOptions (some pwd)).map CFileOption.name ∧
    setOptions none = [] := by
  refine ⟨rfl, rfl, rfl, rfl, rfl, ?_, rfl⟩
  simp [setOptions]

/-! ## Stream server (src/stream_server.cpp)

The mutex-protected state of `StreamServer` is embedded as a record:
`builds` models the `std::list<BuildInfo> builds_` (front = most recent,
`push_front`), `clients` models the fd-to-ClientInfo `map_`, and a
client's position in `waiting_` versus `fds_` is tracked by its
`isWaiting` flag.  A C++ iterator into `builds_` is modelled by the
referenced build id (`none` models `builds_.end()`, which is what
`builds_.begin()` yields on an empty list).  Buffers are byte lists. -/

/-- Result of a build (graph_sequential_builder.h:23, `enum class
BuildResult`). -/
inductive BuildResult where
  | UNKNOWN
  | SUCCEEDED
  | INTERRUPTED
  | FAILED
  deriving DecidableEq, Repr

/-- Modelled from the spec: `toString(BuildResult)` is declared in
graph_sequential_builder.h:24 but defined in a file not under src/; the
spec's wire format (4.5) fixes the strings
SUCCEEDED, FAILED, INTERRUPTED, UNKNOWN. -/
def buildResultString : BuildResult → String
  | BuildResult.UNKNOWN => "UNKNOWN"
  | BuildResult.SUCCEEDED => "SUCCEEDED"
  | BuildResult.INTERRUPTED => "INTERRUPTED"
  | BuildResult.FAILED => "FAILED"

/-- One streamed build (`StreamServer::BuildInfo`, stream_server.h).
Modelled from the spec: the constructor `BuildInfo(buildId)` lives in
stream_server.h, which is not under src/; spec 3 describes the fields
(id, accumulated buffer, completion flag, reader refcount) and
stream_server.cpp:399 reads `firstChunk`; a fresh build has an empty
buffer, is not completed, has no readers and awaits its first chunk. -/
structure BuildInfo where
  buildId : Nat
  buf : List Char
  buildCompleted : Bool
  refcount : Nat
  firstChunk : Bool
  deriving DecidableEq, Repr

/-- One connected subscriber (`StreamServer::ClientInfo`,
stream_server.cpp:232): the build it drains (`itBuild`, `none` for
`builds_.end()`), the offset already sent (`bufPtr`), and whether it sits
in the waiting list rather than the polled fd list. -/
structure ClientInfo where
  itBuild : Option Nat
  bufPtr : Nat
  isWaiting : Bool
  deriving DecidableEq, Repr

/-- The mutex-protected state of `StreamServer`. -/
structure StreamState where
  builds : List BuildInfo
  clients : List (Nat × ClientInfo)
  stopped : Bool
  deriving DecidableEq, Repr

/-- A server with no builds and no clients, as after `StreamServer()`
(stream_server.cpp:25-28). -/
def ssInitial : StreamState := ⟨[], [], false⟩

/-- `StreamServer::writeBuf` (stream_server.cpp:343-346): append to the
current (front) build's buffer.  The C++ asserts `!builds_.empty()`; the
empty case is modelled as a no-op. -/
def writeBuf (s : StreamState) (str : List Char) : StreamState :=
  match s.builds with
  | [] => s
  | b :: rest => { s with builds := { b with buf := b.buf ++ str } :: rest }

/-- `StreamServer::createClient` (stream_server.cpp:213-233): the client
waits when there is no build or the front build's buffer is empty,
otherwise it is put in the polled list; its `itBuild` is
`builds_.begin()` — the front build when one exists, `end()` otherwise —
and the front build's refcount is incremented when the list is nonempty. -/
def createClient (s : StreamState) (fd : Nat) : StreamState :=
  match s.builds with
  | [] =>
      { s with clients := (fd, ⟨none, 0, true⟩) :: s.clients }
  | b :: rest =>
      { s with
        builds := { b with refcount := b.refcount + 1 } :: rest,
        clients := (fd, ⟨some b.buildId, 0, b.buf.isEmpty⟩) :: s.clients }

/-- `StreamServer::flushWaiting` (stream_server.cpp:305-335): move every
waiting client to the polled list; a client not yet assigned to a build
(`itBuild == builds_.end()`) is assigned to the front build, whose
refcount is incremented once per such client (the C++ asserts that an
already-assigned waiting client is assigned to the front build).  The
C++ asserts a nonempty builds list; the empty case is a no-op here. -/
def flushWaiting (s : StreamState) : StreamState :=
  match s.builds with
  | [] => s
  | b :: rest =>
      let w := s.clients.countP (fun c => c.2.isWaiting && c.2.itBuild == none)
      { s with
        builds := { b with refcount := b.refcount + w } :: rest,
        clients := s.clients.map (fun c =>
          if c.2.isWaiting then
            (c.1, { c.2 with isWaiting := false,
                             itBuild := some (c.2.itBuild.getD b.buildId) })
          else c) }

/-- The two assertions at the head of `StreamServer::closeClient`
(stream_server.cpp:283-288): the fd is present in the map and the
client's `itBuild` is a valid, non-end iterator into `builds_`. -/
def closeClientPreB (s : StreamState) (fd : Nat) : Bool :=
  match s.clients.find? (fun c => c.1 == fd) with
  | none => false
  | some c =>
      match c.2.itBuild with
      | none => false
      | some bid => (s.builds.map BuildInfo.buildId).contains bid

/-- The refcount decrement `itBuild->refcount--` of
`StreamServer::closeClient` (stream_server.cpp:289), on the build the
client's iterator designates. -/
def decRef (builds : List BuildInfo) (bid : Nat) : List BuildInfo :=
  builds.map (fun b =>
    if b.buildId == bid then { b with refcount := b.refcount - 1 } else b)

/-- The removal condition of `StreamServer::closeClient`
(stream_server.cpp:295-296): refcount zero, build completed, and not the
front build (so that a build always remains for future clients). -/
def shouldRemoveBuild (builds1 : List BuildInfo) (bid : Nat) : Bool :=
  match builds1.find? (fun b => b.buildId == bid) with
  | none => false
  | some b =>
      b.refcount == 0 && b.buildCompleted &&
        !((builds1.head?.map BuildInfo.buildId) == some bid)

/-- `StreamServer::closeClient` (stream_server.cpp:282-303): decrement the
refcount of the client's build, remove the build when its refcount
reaches zero, it is completed and it is not the front build, then erase
the client.  The branches the C++ asserts against are modelled as no-ops
(in C++ they are undefined behavior). -/
def closeClient (s : StreamState) (fd : Nat) : StreamState :=
  match s.clients.find? (fun c => c.1 == fd) with
  | none => s
  | some c =>
      match c.2.itBuild with
      | none => s
      | some bid =>
          { s with
            builds :=
              if shouldRemoveBuild (decRef s.builds bid) bid then
                (decRef s.builds bid).filter (fun b => !(b.buildId == bid))
              else decRef s.builds bid,
            clients := s.clients.filter (fun c2 => !(c2.1 == fd)) }

/-- `StreamServer::processClient` (stream_server.cpp:235-279) in the case
the kernel accepts every byte: send `buf[bufPtr..]`, advance the offset
to the end of the buffer, then close the client when its build is
completed or move it to the waiting list otherwise.  Returns the new
state and the bytes handed to `send`. -/
def processClient (s : StreamState) (fd : Nat) : StreamState × List Char :=
  match s.clients.find? (fun c => c.1 == fd) with
  | none => (s, [])
  | some c =>
      match c.2.itBuild with
      | none => (s, [])
      | some bid =>
          match s.builds.find? (fun b => b.buildId == bid) with
          | none => (s, [])
          | some b =>
              let sent := b.buf.drop c.2.bufPtr
              let s1 := { s with clients := s.clients.map (fun c2 =>
                  if c2.1 == fd then (c2.1, { c2.2 with bufPtr := b.buf.length })
                  else c2) }
              if b.buildCompleted then (closeClient s1 fd, sent)
              else
                ({ s1 with clients := s1.clients.map (fun c2 =>
                    if c2.1 == fd then (c2.1, { c2.2 with isWaiting := true })
                    else c2) }, sent)

/-- `StreamServer::newBuild` (stream_server.cpp:96-120): drop the previous
front build when nobody reads it any more, push a fresh BuildInfo, write
the JSON document header, and flush the waiting list.  The three
`writeBuf` calls of the C++ are merged into one append. -/
def newBuild (s : StreamState) (buildId : Nat) : StreamState :=
  let s1 :=
    match s.builds with
    | [] => s
    | b :: rest => if b.refcount = 0 then { s with builds := rest } else s
  let s2 := { s1 with builds := ⟨buildId, [], false, 0, true⟩ :: s1.builds }
  let s3 := writeBuf s2
    (("\x7b\n  \"id\": " ++ toString buildId ++ ",\n  \"cmds\": [\n").data)
  flushWaiting s3

/-- `StreamServer::endBuild` (stream_server.cpp:122-137): write the JSON
document footer with the build result, flush the waiting list, then mark
the front build completed. -/
def endBuild (s : StreamState) (result : BuildResult) : StreamState :=
  let s1 := writeBuf s
    (("\n  ],\n  \"result\": \"" ++ buildResultString result ++ "\"\n\x7d\n").data)
  let s2 := flushWaiting s1
  match s2.builds with
  | [] => s2
  | b :: rest => { s2 with builds := { b with buildCompleted := true } :: rest }

/-! ### C10 -/

/-- C10 evaluated at the failing input: a client accepted while the builds
list is empty (before any `newBuild`) gets `itBuild = builds_.end()`,
and the asserted precondition of `closeClient` is false for it — yet the
destructor (stream_server.cpp:64-76) calls `closeClient` on every client
in the map, so the assertion `itBuild != builds_.end()` is violated on
that path (and the refcount decrement dereferences an end iterator). -/
theorem closeClient_assert_fails_for_unassigned_client :
    ((5, (⟨none, 0, true⟩ : ClientInfo)) ∈ (createClient ssInitial 5).clients) ∧
    closeClientPreB (createClient ssInitial 5) 5 = false := by
  exact ⟨by decide, by decide⟩

/-! ### C1 -/

/-- The state reached by: `newBuild(0)`; `endBuild(SUCCEEDED)`; a
subscriber socket 7 accepted strictly between `endBuild` of build 0 and
`newBuild` of build 1. -/
def betweenBuildsState : StreamState :=
  createClient (endBuild (newBuild ssInitial 0) BuildResult.SUCCEEDED) 7

/-- The complete JSON document of build 0 (empty cmds list). -/
def build0Doc : List Char :=
  ("\x7b\n  \"id\": 0,\n  \"cmds\": [\n\n  ],\n  \"result\": \"SUCCEEDED\"\n\x7d\n").data

/-- C1 counterexample: the subscriber accepted between `endBuild` of build
0 and `newBuild` of build 1 is not made to wait — it is assigned to the
retained, completed build 0 (stream_server.cpp:216-232, since the buffer of build 0 is nonempty)
and the next `processClient` sends it the complete document of build 0, contradicting the claim that it is not sent the
document of build N and waits for build N+1. -/
theorem subscriber_between_builds_receives_previous_build :
    ((7, (⟨some 0, 0, false⟩ : ClientInfo)) ∈ betweenBuildsState.clients) ∧
    (processClient betweenBuildsState 7).2 = build0Doc := by
  exact ⟨by decide, by decide⟩

/-- C1 amended: a subscriber accepted while the front build is completed
with a nonempty buffer — the situation between `endBuild` of N and
`newBuild` of N+1, since the retained build N holds its complete
document — is assigned to build N, is not put in the waiting list, and
the next `processClient` sends it the entire buffer of build N from its
beginning; it does not wait for build N+1. -/
theorem subscriber_between_builds_amended (s : StreamState) (b : BuildInfo)
    (rest : List BuildInfo) (fd : Nat)
    (hb : s.builds = b :: rest) (hcomp : b.buildCompleted = true)
    (hbuf : b.buf ≠ []) :
    ((fd, (⟨some b.buildId, 0, false⟩ : ClientInfo)) ∈ (createClient s fd).clients) ∧
    (processClient (createClient s fd) fd).2 = b.buf := by
  have hE : b.buf.isEmpty = false := by
    cases hbb : b.buf with
    | nil => exact absurd hbb hbuf
    | cons x xs => rfl
  obtain ⟨builds, clients, stopped⟩ := s
  dsimp only at hb
  subst hb
  have hcc : createClient ⟨b :: rest, clients, stopped⟩ fd =
      ⟨{ b with refcount := b.refcount + 1 } :: rest,
       (fd, ⟨some b.buildId, 0, b.buf.isEmpty⟩) :: clients, stopped⟩ := rfl
  rw [hcc, hE]
  refine ⟨List.mem_cons_self _ _, ?_⟩
  have hfind1 : List.find? (fun c => c.1 == fd)
      ((fd, (⟨some b.buildId, 0, false⟩ : ClientInfo)) :: clients) =
      some (fd, ⟨some b.buildId, 0, false⟩) :=
    List.find?_cons_of_pos _ (by simp)
  have hfind2 : List.find? (fun bb => bb.buildId == b.buildId)
      ({ b with refcount := b.refcount + 1 } :: rest) =
      some { b with refcount := b.refcount + 1 } :=
    List.find?_cons_of_pos _ (by simp)
  unfold processClient
  rw [hfind1]
  dsimp only
  rw [hfind2]
  dsimp only
  rw [if_pos (by simpa using hcomp)]
  simp

/-- Witness for the amended C1: the concrete run newBuild(0),
endBuild(SUCCEEDED), then accepting socket 7. -/
theorem subscriber_between_builds_amended_witness :
    ((7, (⟨some 0, 0, false⟩ : ClientInfo)) ∈
      (createClient (endBuild (newBuild ssInitial 0) BuildResult.SUCCEEDED) 7).clients) ∧
    (processClient
        (createClient (endBuild (newBuild ssInitial 0) BuildResult.SUCCEEDED) 7)
        7).2 =
      (⟨0, build0Doc, true, 0, true⟩ : BuildInfo).buf :=
  subscriber_between_builds_amended
    (endBuild (newBuild ssInitial 0) BuildResult.SUCCEEDED)
    ⟨0, build0Doc, true, 0, true⟩ [] 7 (by decide) (by decide) (by decide)

/-! ### C9: the refcount bookkeeping invariant -/

/-- C9's invariant: each build's reader refcount equals the number of
connected clients whose `itBuild` refers to that build. -/
def RefcountInv (s : StreamState) : Prop :=
  ∀ b ∈ s.builds,
    b.refcount = s.clients.countP (fun c => c.2.itBuild == some b.buildId)

instance (s : StreamState) : Decidable (RefcountInv s) := by
  unfold RefcountInv; infer_instance

/-- Structural well-formedness the server maintains: build ids are
pairwise distinct (they come from the daemon's monotonically increasing
`buildId_`) and each socket fd appears at most once in the map. -/
def WFStream (s : StreamState) : Prop :=
  (s.builds.map BuildInfo.buildId).Nodup ∧ (s.clients.map Prod.fst).Nodup

instance (s : StreamState) : Decidable (WFStream s) := by
  unfold WFStream; infer_instance

theorem countP_congr_mem {α : Type} : ∀ (l : List α) (p q : α → Bool),
    (∀ a ∈ l, p a = q a) → l.countP p = l.countP q := by
  intro l
  induction l with
  | nil => intro p q _; rfl
  | cons a t ih =>
      intro p q h
      rw [List.countP_cons, List.countP_cons,
          ih p q (fun x hx => h x (List.mem_cons_of_mem a hx)),
          h a (List.mem_cons_self a t)]

theorem countP_disjoint_add {α : Type} : ∀ (l : List α) (p q : α → Bool),
    (∀ a ∈ l, ¬(p a = true ∧ q a = true)) →
    l.countP (fun a => p a || q a) = l.countP p + l.countP q := by
  intro l
  induction l with
  | nil => intro p q _; rfl
  | cons a t ih =>
      intro p q h
      rw [List.countP_cons, List.countP_cons, List.countP_cons,
          ih p q (fun x hx => h x (List.mem_cons_of_mem a hx))]
      have ha := h a (List.mem_cons_self a t)
      cases hpa : p a with
      | false =>
          cases hqa : q a with
          | false => simp [hpa, hqa]
          | true => simp [hpa, hqa]; omega
      | true =>
          cases hqa : q a with
          | false => simp [hpa, hqa]; omega
          | true => exact absurd ⟨hpa, hqa⟩ ha

/-- Erasing the client `find?` located from a duplicate-free map removes
exactly one entry: every count drops by that entry's contribution. -/
theorem countP_filter_fd :
    ∀ (l : List (Nat × ClientInfo)) (fd : Nat) (x : Nat × ClientInfo)
      (p : Nat × ClientInfo → Bool),
      (l.map Prod.fst).Nodup → l.find? (fun c => c.1 == fd) = some x →
      (l.filter (fun c => !(c.1 == fd))).countP p + (if p x then 1 else 0) =
        l.countP p := by
  intro l
  induction l with
  | nil => intro fd x p _ hfind; exact absurd hfind (by simp)
  | cons a t ih =>
      intro fd x p hnd hfind
      rw [List.map_cons] at hnd
      have hnd2 := List.nodup_cons.mp hnd
      by_cases ha : (a.1 == fd) = true
      · have hxa : x = a := by
          have h2 := (List.find?_cons_of_pos (l := t) ha).symm.trans hfind
          injection h2 with h3
          exact h3.symm
        subst hxa
        have hafd : x.1 = fd := by simpa using ha
        have htfil : t.filter (fun c => !(c.1 == fd)) = t := by
          rw [List.filter_eq_self]
          intro c hc
          have hcne : c.1 ≠ fd := by
            intro hce
            exact hnd2.1 (by
              rw [hafd, ← hce]
              exact List.mem_map_of_mem Prod.fst hc)
          simp [hcne]
        rw [List.filter_cons, if_neg (by simp [ha]), htfil, List.countP_cons]
      · rw [List.find?_cons_of_neg (l := t) ha] at hfind
        have hIH := ih fd x p hnd2.2 hfind
        rw [List.filter_cons, if_pos (by simp [ha]), List.countP_cons,
            List.countP_cons]
        cases hpa : p a <;> cases hpx : p x <;>
          simp only [hpa, hpx] at hIH ⊢ <;> omega

theorem createClient_refcount (s : StreamState) (fd : Nat)
    (hnd : (s.builds.map BuildInfo.buildId).Nodup)
    (hinv : RefcountInv s) :
    RefcountInv (createClient s fd) := by
  obtain ⟨builds, clients, stopped⟩ := s
  cases builds with
  | nil =>
      intro b' hb'
      exact absurd hb' (by simp [createClient])
  | cons b rest =>
      intro b' hb'
      simp only [createClient] at hb' ⊢
      rw [List.map_cons] at hnd
      have hnd2 := List.nodup_cons.mp hnd
      rcases List.mem_cons.mp hb' with rfl | hb't
      · rw [List.countP_cons]
        have hhead := hinv b (List.mem_cons_self b rest)
        simp only at hhead ⊢
        rw [hhead]
        simp
      · rw [List.countP_cons]
        have hne : b.buildId ≠ b'.buildId := by
          intro heq
          exact hnd2.1 (heq ▸ List.mem_map_of_mem BuildInfo.buildId hb't)
        have htail := hinv b' (List.mem_cons_of_mem b hb't)
        simp only at htail ⊢
        rw [htail]
        simp [hne]

@[simp] theorem optNat_none_beq_some (x : Nat) :
    ((none : Option Nat) == some x) = false := rfl

@[simp] theorem optNat_some_beq_none (x : Nat) :
    ((some x : Option Nat) == none) = false := rfl

@[simp] theorem optNat_some_beq_some (x y : Nat) :
    ((some x : Option Nat) == some y) = (x == y) := rfl

/-- Counting, through the flush map, the clients assigned to the front
build: every already-assigned one stays and every waiting unassigned one
is added. -/
theorem countP_flush_front (bId : Nat) : ∀ l : List (Nat × ClientInfo),
    (∀ c ∈ l, c.2.isWaiting = true →
      c.2.itBuild = none ∨ c.2.itBuild = some bId) →
    (l.map (fun c =>
      if c.2.isWaiting then
        (c.1, { c.2 with isWaiting := false,
                         itBuild := some (c.2.itBuild.getD bId) })
      else c)).countP (fun c => c.2.itBuild == some bId) =
      l.countP (fun c => c.2.itBuild == some bId) +
        l.countP (fun c => c.2.isWaiting && c.2.itBuild == none) := by
  intro l
  induction l with
  | nil => intro _; rfl
  | cons c t ih =>
      intro h
      have hc := h c (List.mem_cons_self c t)
      have ht := fun c2 h2 hw => h c2 (List.mem_cons_of_mem c h2) hw
      by_cases hw : c.2.isWaiting = true
      · rcases hc hw with hnone | hfront
        · simp [hw, hnone, List.countP_cons, ih ht]
          omega
        · simp [hw, hfront, List.countP_cons, ih ht]
          omega
      · have hwf : c.2.isWaiting = false := by simpa using hw
        simp [hwf, List.countP_cons, ih ht]
        omega

/-- Counting, through the flush map, the clients assigned to any build
other than the front one: nothing changes. -/
theorem countP_flush_other (bId target : Nat) (hne : target ≠ bId) :
    ∀ l : List (Nat × ClientInfo),
    (∀ c ∈ l, c.2.isWaiting = true →
      c.2.itBuild = none ∨ c.2.itBuild = some bId) →
    (l.map (fun c =>
      if c.2.isWaiting then
        (c.1, { c.2 with isWaiting := false,
                         itBuild := some (c.2.itBuild.getD bId) })
      else c)).countP (fun c => c.2.itBuild == some target) =
      l.countP (fun c => c.2.itBuild == some target) := by
  intro l
  induction l with
  | nil => intro _; rfl
  | cons c t ih =>
      intro h
      have hc := h c (List.mem_cons_self c t)
      have ht := fun c2 h2 hw => h c2 (List.mem_cons_of_mem c h2) hw
      by_cases hw : c.2.isWaiting = true
      · rcases hc hw with hnone | hfront
        · simp [hw, hnone, List.countP_cons, ih ht, Ne.symm hne]
        · simp [hw, hfront, List.countP_cons, ih ht, Ne.symm hne]
      · have hwf : c.2.isWaiting = false := by simpa using hw
        simp [hwf, List.countP_cons, ih ht]

theorem flushWaiting_refcount (s : StreamState) (b : BuildInfo)
    (rest : List BuildInfo)
    (hb : s.builds = b :: rest)
    (hnd : (s.builds.map BuildInfo.buildId).Nodup)
    (hinv : RefcountInv s)
    (hwait : ∀ c ∈ s.clients, c.2.isWaiting = true →
      c.2.itBuild = none ∨ c.2.itBuild = some b.buildId) :
    RefcountInv (flushWaiting s) := by
  obtain ⟨builds, clients, stopped⟩ := s
  dsimp only at hb
  subst hb
  rw [List.map_cons] at hnd
  have hnd2 := List.nodup_cons.mp hnd
  intro b' hb'
  simp only [flushWaiting] at hb' ⊢
  rcases List.mem_cons.mp hb' with rfl | hb't
  · dsimp only
    rw [countP_flush_front b.buildId clients (fun c hc hw => hwait c hc hw)]
    have hhead := hinv b (List.mem_cons_self b rest)
    dsimp only at hhead
    rw [hhead]
  · have hne : b'.buildId ≠ b.buildId := by
      intro heq
      exact hnd2.1 (heq ▸ List.mem_map_of_mem BuildInfo.buildId hb't)
    rw [countP_flush_other b.buildId b'.buildId hne clients
        (fun c hc hw => hwait c hc hw)]
    exact hinv b' (List.mem_cons_of_mem b hb't)

theorem closeClient_eq (s : StreamState) (fd : Nat) (c : Nat × ClientInfo)
    (bid : Nat) (h1 : s.clients.find? (fun cc => cc.1 == fd) = some c)
    (h2 : c.2.itBuild = some bid) :
    closeClient s fd =
      { s with
        builds :=
          if shouldRemoveBuild (decRef s.builds bid) bid then
            (decRef s.builds bid).filter (fun b => !(b.buildId == bid))
          else decRef s.builds bid,
        clients := s.clients.filter (fun c2 => !(c2.1 == fd)) } := by
  unfold closeClient
  rw [h1]
  dsimp only
  rw [h2]

theorem closeClient_refcount (s : StreamState) (fd : Nat)
    (hndc : (s.clients.map Prod.fst).Nodup)
    (hinv : RefcountInv s)
    (hpre : closeClientPreB s fd = true) :
    RefcountInv (closeClient s fd) := by
  unfold closeClientPreB at hpre
  cases hfind : s.clients.find? (fun c => c.1 == fd) with
  | none =>
      rw [hfind] at hpre
      dsimp only at hpre
      exact absurd hpre (by simp)
  | some c =>
      rw [hfind] at hpre
      dsimp only at hpre
      cases hib : c.2.itBuild with
      | none =>
          rw [hib] at hpre
          dsimp only at hpre
          exact absurd hpre (by simp)
      | some bid =>
          rw [closeClient_eq s fd c bid hfind hib]
          have hpc : (fun cc : Nat × ClientInfo => cc.2.itBuild == some bid) c = true := by
            simp [hib]
          intro b' hb'
          dsimp only at hb'
          have hmemB1 : b' ∈ decRef s.builds bid := by
            by_cases hrem : shouldRemoveBuild (decRef s.builds bid) bid = true
            · rw [if_pos hrem] at hb'
              exact (List.mem_filter.mp hb').1
            · rw [if_neg hrem] at hb'
              exact hb'
          obtain ⟨b0, hb0, heq⟩ := List.mem_map.mp hmemB1
          by_cases hb0id : b0.buildId = bid
          · have hb'id : b'.buildId = bid := by
              rw [← heq]
              simp [hb0id]
            have hb'ref : b'.refcount = b0.refcount - 1 := by
              rw [← heq]
              simp [hb0id]
            have hkey := countP_filter_fd s.clients fd c
              (fun cc => cc.2.itBuild == some bid) hndc hfind
            rw [if_pos hpc] at hkey
            have hb0c := hinv b0 hb0
            rw [hb0id] at hb0c
            dsimp only
            rw [hb'ref, hb'id]
            omega
          · have hb'id : b'.buildId = b0.buildId := by
              rw [← heq]
              simp [hb0id]
            have hb'ref : b'.refcount = b0.refcount := by
              rw [← heq]
              simp [hb0id]
            have hpcne : (fun cc : Nat × ClientInfo =>
                cc.2.itBuild == some b0.buildId) c = false := by
              simp [hib]
              exact fun h => hb0id h.symm
            have hkey := countP_filter_fd s.clients fd c
              (fun cc => cc.2.itBuild == some b0.buildId) hndc hfind
            rw [hpcne] at hkey
            simp only [Bool.false_eq_true, if_false] at hkey
            have hb0c := hinv b0 hb0
            dsimp only
            rw [hb'ref, hb'id]
            omega

theorem newBuild_aux (clients : List (Nat × ClientInfo)) (stopped : Bool)
    (tail : List BuildInfo) (bid : Nat) (buf0 : List Char)
    (hnd : (tail.map BuildInfo.buildId).Nodup)
    (hfresh : ∀ b ∈ tail, b.buildId ≠ bid)
    (hinvt : ∀ b ∈ tail,
      b.refcount = clients.countP (fun c => c.2.itBuild == some b.buildId))
    (hcfresh : ∀ c ∈ clients, c.2.itBuild ≠ some bid)
    (hwait : ∀ c ∈ clients, c.2.isWaiting = true → c.2.itBuild = none) :
    RefcountInv (flushWaiting ⟨⟨bid, buf0, false, 0, true⟩ :: tail, clients, stopped⟩) := by
  apply flushWaiting_refcount _ ⟨bid, buf0, false, 0, true⟩ tail rfl
  · rw [List.map_cons]
    refine List.nodup_cons.mpr ⟨?_, hnd⟩
    intro hmem
    obtain ⟨b0, hb0, hid⟩ := List.mem_map.mp hmem
    exact hfresh b0 hb0 hid
  · intro b' hb'
    rcases List.mem_cons.mp hb' with rfl | hb't
    · dsimp only
      exact (List.countP_eq_zero.mpr (fun c hc => by simpa using hcfresh c hc)).symm
    · exact hinvt b' hb't
  · intro c hc hw
    exact Or.inl (hwait c hc hw)

theorem newBuild_refcount (s : StreamState) (bid : Nat)
    (hndb : (s.builds.map BuildInfo.buildId).Nodup)
    (hfresh : ∀ b ∈ s.builds, b.buildId ≠ bid)
    (hcfresh : ∀ c ∈ s.clients, c.2.itBuild ≠ some bid)
    (hwait : ∀ c ∈ s.clients, c.2.isWaiting = true → c.2.itBuild = none)
    (hinv : RefcountInv s) :
    RefcountInv (newBuild s bid) := by
  obtain ⟨builds, clients, stopped⟩ := s
  cases builds with
  | nil =>
      have hres : newBuild ⟨[], clients, stopped⟩ bid =
          flushWaiting ⟨⟨bid,
            ("\x7b\n  \"id\": " ++ toString bid ++ ",\n  \"cmds\": [\n").data,
            false, 0, true⟩ :: [], clients, stopped⟩ := rfl
      rw [hres]
      exact newBuild_aux clients stopped [] bid _ (by simp)
        (by intro b hb; exact absurd hb (by simp))
        (by intro b hb; exact absurd hb (by simp)) hcfresh hwait
  | cons b rest =>
      rw [List.map_cons] at hndb
      have hnd2 := List.nodup_cons.mp hndb
      by_cases hz : b.refcount = 0
      · have hres : newBuild ⟨b :: rest, clients, stopped⟩ bid =
            flushWaiting ⟨⟨bid,
              ("\x7b\n  \"id\": " ++ toString bid ++ ",\n  \"cmds\": [\n").data,
              false, 0, true⟩ :: rest, clients, stopped⟩ := by
          unfold newBuild
          dsimp only
          rw [if_pos hz]
          rfl
        rw [hres]
        exact newBuild_aux clients stopped rest bid _ hnd2.2
          (fun b' hb' => hfresh b' (List.mem_cons_of_mem b hb'))
          (fun b' hb' => hinv b' (List.mem_cons_of_mem b hb'))
          hcfresh hwait
      · have hres : newBuild ⟨b :: rest, clients, stopped⟩ bid =
            flushWaiting ⟨⟨bid,
              ("\x7b\n  \"id\": " ++ toString bid ++ ",\n  \"cmds\": [\n").data,
              false, 0, true⟩ :: (b :: rest), clients, stopped⟩ := by
          unfold newBuild
          dsimp only
          rw [if_neg hz]
          rfl
        rw [hres]
        exact newBuild_aux clients stopped (b :: rest) bid _ hndb
          (fun b' hb' => hfresh b' hb')
          (fun b' hb' => hinv b' hb')
          hcfresh hwait

/-- C9: starting from any well-formed state satisfying the refcount
bookkeeping invariant — each build's refcount equals the number of
clients whose `itBuild` refers to it — the four state transitions
`createClient`, `flushWaiting` (under its asserted precondition on
waiting clients), `closeClient` (under its asserted preconditions) and
`newBuild` (with a fresh build id) each preserve the invariant. -/
theorem streamServer_refcount_invariant (s : StreamState)
    (hwf : WFStream s) (hinv : RefcountInv s) :
    (∀ fd, RefcountInv (createClient s fd)) ∧
    (∀ b rest, s.builds = b :: rest →
      (∀ c ∈ s.clients, c.2.isWaiting = true →
        c.2.itBuild = none ∨ c.2.itBuild = some b.buildId) →
      RefcountInv (flushWaiting s)) ∧
    (∀ fd, closeClientPreB s fd = true → RefcountInv (closeClient s fd)) ∧
    (∀ bid, (∀ b ∈ s.builds, b.buildId ≠ bid) →
      (∀ c ∈ s.clients, c.2.itBuild ≠ some bid) →
      (∀ c ∈ s.clients, c.2.isWaiting = true → c.2.itBuild = none) →
      RefcountInv (newBuild s bid)) :=
  ⟨fun fd => createClient_refcount s fd hwf.1 hinv,
   fun b rest hb hwait => flushWaiting_refcount s b rest hb hwf.1 hinv hwait,
   fun fd hpre => closeClient_refcount s fd hwf.2 hinv hpre,
   fun bid hfresh hcfresh hwait =>
     newBuild_refcount s bid hwf.1 hfresh hcfresh hwait hinv⟩

/-- A concrete well-formed server state: one build being streamed to one
client. -/
def ssWitness : StreamState :=
  ⟨[⟨0, "x".data, false, 1, false⟩], [(3, ⟨some 0, 0, false⟩)], false⟩

/-- Witness for C9 at the concrete state `ssWitness`. -/
theorem streamServer_refcount_invariant_witness :
    (∀ fd, RefcountInv (createClient ssWitness fd)) ∧
    (∀ b rest, ssWitness.builds = b :: rest →
      (∀ c ∈ ssWitness.clients, c.2.isWaiting = true →
        c.2.itBuild = none ∨ c.2.itBuild = some b.buildId) →
      RefcountInv (flushWaiting ssWitness)) ∧
    (∀ fd, closeClientPreB ssWitness fd = true →
      RefcountInv (closeClient ssWitness fd)) ∧
    (∀ bid, (∀ b ∈ ssWitness.builds, b.buildId ≠ bid) →
      (∀ c ∈ ssWitness.clients, c.2.itBuild ≠ some bid) →
      (∀ c ∈ ssWitness.clients, c.2.isWaiting = true → c.2.itBuild = none) →
      RefcountInv (newBuild ssWitness bid)) :=
  streamServer_refcount_invariant ssWitness (by decide) (by decide)

end Falcon
